import Mathlib

/-!
Verification development for the indexing layer of an in-memory database
engine: numeric hash indexes (find / remove / replace and the keyed
iterator), the tuple dictionary (construction, lookup, comparison, swap),
the secondary-index build pass, and cluster server registration.

Machine integers are modelled as Nat with explicit reductions modulo
2 ^ 32 where the source computes in 32-bit arithmetic.  A stored record
(box_tuple) is a list of fields, each field the raw bytes of a
length-prefixed binary blob.  Reads that the C source performs on memory
that a malformed encoding does not cover (out-of-bounds loads, null
dereference) are modelled by the distinguished error value KeyErr.badData;
no claim quantifies over such inputs.
-/

namespace Tarantool

/-! ## Key codec (pickle.h): variable-width length header and fixed-width loads -/

/-- Accumulator loop of load_varint32: seven value bits per byte, the high
bit of a byte marks continuation; arithmetic is 32-bit (mod 2 ^ 32). -/
def load_varint32_aux : Nat → List Nat → Option (Nat × List Nat)
  | _, [] => none
  | acc, b :: rest =>
    if b % 256 < 128 then some ((acc * 128 + b % 128) % 2 ^ 32, rest)
    else load_varint32_aux ((acc * 128 + b % 128) % 2 ^ 32) rest

/-- load_varint32: decode the varint length header of a field, returning the
decoded value and the remaining bytes. -/
def load_varint32 (bytes : List Nat) : Option (Nat × List Nat) :=
  load_varint32_aux 0 bytes

/-- Little-endian load of a fixed number of bytes, as in the source reads
of the form loading a u32 or u64 from a byte pointer.  Returns none when
fewer bytes remain (an out-of-bounds read in C). -/
def read_le : Nat → List Nat → Option Nat
  | 0, _ => some 0
  | _ + 1, [] => none
  | w + 1, b :: rest => (read_le w rest).map (fun v => b % 256 + 256 * v)

/-- Little-endian encoding of a value into a fixed number of bytes. -/
def encode_le : Nat → Nat → List Nat
  | 0, _ => []
  | w + 1, n => n % 256 :: encode_le w (n / 256)

/-! ## Records and the open-addressing hash table (mh_i32ptr / mh_i64ptr) -/

/-- A record: an ordered list of fields, each field its raw bytes
(length header included). -/
abbrev Tuple := List (List Nat)

/-- tuple_field: the field of a record at a given field number, or none
when the record has fewer fields. -/
def tuple_field (t : Tuple) (fieldno : Nat) : Option (List Nat) :=
  t[fieldno]?

/-- One slot of the open-addressing table: occupied by a key/record pair,
or free (also covering slots a deletion has tombstoned). -/
abbrev Slot := Option (Nat × Tuple)

/-- The open-addressing hash table, as its sequence of slots.  Keys are
the decoded numeric key values; values are the stored record handles. -/
abbrev MhTab := List Slot

/-- Whether a slot is occupied and holds the given key. -/
def slot_has_key (k : Nat) : Slot → Bool
  | some (k2, _) => k2 == k
  | none => false

/-- mh get: the record stored under a key, searching slots in order. -/
def mh_get : MhTab → Nat → Option Tuple
  | [], _ => none
  | some (k2, v) :: rest, k => if k2 = k then some v else mh_get rest k
  | none :: rest, k => mh_get rest k

/-- mh put: overwrite the slot already holding the key, else occupy a fresh
slot.  The physical position of the fresh slot is abstracted as the end of
the slot sequence. -/
def mh_put : MhTab → Nat → Tuple → MhTab
  | [], k, v => [some (k, v)]
  | s :: rest, k, v =>
    if slot_has_key k s then some (k, v) :: rest
    else s :: mh_put rest k v

/-- mh del: tombstone the slot holding the key (no change when absent,
matching the get-then-del pattern of the callers). -/
def mh_del : MhTab → Nat → MhTab
  | [], _ => []
  | s :: rest, k =>
    if slot_has_key k s then none :: rest
    else s :: mh_del rest k

/-- mh_size: the number of occupied slots. -/
def mh_size (h : MhTab) : Nat := h.countP (fun s => s.isSome)

/-- The keys of the occupied slots, in slot order. -/
def mh_keys (h : MhTab) : List Nat :=
  h.filterMap (fun s => s.map Prod.fst)

/-! ## Numeric hash index operations (Hash32Index with width 4,
Hash64Index with width 8) -/

/-- Errors raised by the index operations.  invalidKeyType models the
IllegalParams raise of the source when the decoded field length does not
match the fixed key width (the InvalidKeyType error of the contract);
badData models reads the C source performs past a malformed encoding. -/
inductive KeyErr
  | invalidKeyType
  | badData
deriving DecidableEq

/-- Decode a numeric key field: varint length header, then the width check
of the source (raise when the decoded length differs from the fixed
width), then the fixed-width little-endian load. -/
def load_num_field (width : Nat) (field : List Nat) : Except KeyErr Nat :=
  match load_varint32 field with
  | none => .error .badData
  | some (sz, rest) =>
    if sz ≠ width then .error .invalidKeyType
    else
      match read_le width rest with
      | none => .error .badData
      | some n => .ok n

/-- Decode of the key of the old record inside replace: the source ignores
the decoded length there and performs no width check. -/
def load_num_field_unchecked (width : Nat) (field : List Nat) : Except KeyErr Nat :=
  match load_varint32 field with
  | none => .error .badData
  | some (_, rest) =>
    match read_le width rest with
    | none => .error .badData
    | some n => .ok n

/-- find of the numeric hash indexes: decode the search key (with width
check), then look it up.  A pure query: the table is not an output. -/
def num_hash_find (width : Nat) (h : MhTab) (field : List Nat) :
    Except KeyErr (Option Tuple) :=
  match load_num_field width field with
  | .error e => .error e
  | .ok n => .ok (mh_get h n)

/-- Hash32Index find (key width 4 bytes). -/
def hash32_find (h : MhTab) (field : List Nat) : Except KeyErr (Option Tuple) :=
  num_hash_find 4 h field

/-- Hash64Index find (key width 8 bytes). -/
def hash64_find (h : MhTab) (field : List Nat) : Except KeyErr (Option Tuple) :=
  num_hash_find 8 h field

/-- remove of the numeric hash indexes: extract the indexed field of the
record, decode its key (with width check), get the slot under that key and
delete it when present; no change when absent. -/
def num_hash_remove (width fieldno : Nat) (h : MhTab) (t : Tuple) :
    Except KeyErr MhTab :=
  match tuple_field t fieldno with
  | none => .error .badData
  | some field =>
    match load_num_field width field with
    | .error e => .error e
    | .ok n =>
      .ok (match mh_get h n with
           | some _ => mh_del h n
           | none => h)

/-- Hash32Index remove. -/
def hash32_remove (fieldno : Nat) (h : MhTab) (t : Tuple) : Except KeyErr MhTab :=
  num_hash_remove 4 fieldno h t

/-- Hash64Index remove. -/
def hash64_remove (fieldno : Nat) (h : MhTab) (t : Tuple) : Except KeyErr MhTab :=
  num_hash_remove 8 fieldno h t

/-- replace of the numeric hash indexes, in source order: decode the key of
the new record (with width check); when the old record is non-null, decode
its key (without width check) and delete the entry under it when present;
then put the new record under the new key. -/
def num_hash_replace (width fieldno : Nat) (h : MhTab) (old_t : Option Tuple)
    (new_t : Tuple) : Except KeyErr MhTab :=
  match tuple_field new_t fieldno with
  | none => .error .badData
  | some field =>
    match load_num_field width field with
    | .error e => .error e
    | .ok num =>
      match old_t with
      | none => .ok (mh_put h num new_t)
      | some ot =>
        match tuple_field ot fieldno with
        | none => .error .badData
        | some ofield =>
          match load_num_field_unchecked width ofield with
          | .error e => .error e
          | .ok onum =>
            let h2 := match mh_get h onum with
                      | some _ => mh_del h onum
                      | none => h
            .ok (mh_put h2 num new_t)

/-- Hash32Index replace. -/
def hash32_replace (fieldno : Nat) (h : MhTab) (old_t : Option Tuple)
    (new_t : Tuple) : Except KeyErr MhTab :=
  num_hash_replace 4 fieldno h old_t new_t

/-- Hash64Index replace. -/
def hash64_replace (fieldno : Nat) (h : MhTab) (old_t : Option Tuple)
    (new_t : Tuple) : Except KeyErr MhTab :=
  num_hash_replace 8 fieldno h old_t new_t

/-! ## The hash iterator and its equal-match advance -/

/-- The advance-function slot of the iterator: unset (the unkeyed init
stores a null pointer there), iterator_first_equal, or
iterator_next_equal (the always-Done function swapped in after the first
hit). -/
inductive NextEqualState
  | unset
  | firstEqual
  | nextEqual
deriving DecidableEq

/-- struct hash_iterator: the referenced slot sequence, the cursor
position h_pos, and the current equal-match advance function. -/
structure HashIterator where
  slots : MhTab
  h_pos : Nat
  next_equal : NextEqualState
deriving DecidableEq

/-- The slot index the table lookup yields for a key: position of the slot
holding the key, or the end position (the slot-sequence length) when the
key is absent (mh_end). -/
def mh_slot_get : MhTab → Nat → Nat
  | [], _ => 0
  | s :: rest, k => if slot_has_key k s then 0 else mh_slot_get rest k + 1

/-- Scan of the slot suffix for the first occupied slot: the stored record
and the offset of its slot, or none when only free slots remain. -/
def scan_list : List Slot → Option (Tuple × Nat)
  | [] => none
  | some (_, t) :: _ => some (t, 0)
  | none :: rest => (scan_list rest).map (fun p => (p.1, p.2 + 1))

/-- hash_iterator_next: advance from h_pos to the next occupied slot,
skipping free slots; return its record and leave h_pos one past it, or
return none with h_pos at the end. -/
def hash_iterator_next (it : HashIterator) : Option Tuple × HashIterator :=
  match scan_list (it.slots.drop it.h_pos) with
  | some (t, i) => (some t, { it with h_pos := it.h_pos + i + 1 })
  | none => (none, { it with h_pos := it.slots.length })

/-- One call through the next_equal slot of the iterator.
iterator_first_equal swaps in iterator_next_equal and then runs the plain
advance once; iterator_next_equal returns end-of-sequence and changes
nothing.  Calling through the unset slot is a null-pointer call in C,
unreachable for a keyed-initialized iterator; it is mapped to
end-of-sequence here. -/
def iterator_next_equal_call (it : HashIterator) : Option Tuple × HashIterator :=
  match it.next_equal with
  | .firstEqual => hash_iterator_next { it with next_equal := .nextEqual }
  | .nextEqual => (none, it)
  | .unset => (none, it)

/-- Result of the n-th successive equal-match advance (0-based) starting
from a given iterator state. -/
def nth_equal_advance (it : HashIterator) : Nat → Option Tuple
  | 0 => (iterator_next_equal_call it).1
  | n + 1 => nth_equal_advance (iterator_next_equal_call it).2 n

/-- The keyed initIterator of the numeric hash indexes: decode the key
(with width check), position h_pos at the slot the lookup yields, and set
the equal-match advance to iterator_first_equal. -/
def num_hash_initIterator_keyed (width : Nat) (slots : MhTab) (key : List Nat) :
    Except KeyErr HashIterator :=
  match load_num_field width key with
  | .error e => .error e
  | .ok n => .ok ⟨slots, mh_slot_get slots n, .firstEqual⟩

/-! ## Tuple dictionary (tuple_dict.c) -/

/-- A field name, as the bytes of the C string (no terminating zero). -/
abbrev FieldName := List Nat

/-- One node of the mh_strnu32 hash: name bytes, name length, precomputed
hash, and the stored field number. -/
structure StrNode where
  name : FieldName
  len : Nat
  hash : Nat
  val : Nat
deriving DecidableEq

/-- Key match of mh_strnu32: equal length, equal precomputed hash, and
equal name bytes over that length (memcmp of len bytes). -/
def strnode_match (name : FieldName) (len h : Nat) (nd : StrNode) : Bool :=
  nd.len == len && (nd.hash == h && nd.name.take nd.len == name.take len)

/-- mh_strnu32_find: the first node matching (name, len, hash). -/
def mh_strnu32_find (tab : List StrNode) (name : FieldName) (len h : Nat) :
    Option StrNode :=
  tab.find? (strnode_match name len h)

/-- Error of dictionary construction. -/
inductive DictErr
  | duplicateFieldName
deriving DecidableEq

/-- struct tuple_dictionary: reference count, field count, the ordered
name array, and the backing hash (none when the dictionary was built with
zero fields).  The constructor keeps name_count equal to the length of the
names array; the C loops read exactly name_count entries of that array. -/
structure TupleDictionary where
  refs : Nat
  name_count : Nat
  names : List FieldName
  hash : Option (List StrNode)
deriving DecidableEq

/-- tuple_dictionary_set_name: check for a node already matching
(name, strlen name, hash name) and report the duplicate, else put the new
node.  The hash function is the external field_name_hash, a parameter
here. -/
def tuple_dictionary_set_name (fhash : FieldName → Nat) (tab : List StrNode)
    (name : FieldName) (fieldno : Nat) : Option (List StrNode) :=
  match mh_strnu32_find tab name name.length (fhash name) with
  | some _ => none
  | none => some (tab ++ [⟨name, name.length, fhash name, fieldno⟩])

/-- The construction loop: insert each name with its field number, failing
on the first duplicate. -/
def build_names (fhash : FieldName → Nat) :
    List FieldName → Nat → List StrNode → Option (List StrNode)
  | [], _, tab => some tab
  | n :: rest, i, tab =>
    match tuple_dictionary_set_name fhash tab n i with
    | none => none
    | some tab2 => build_names fhash rest (i + 1) tab2

/-- The nodes the construction loop produces for a name list, numbering
fields from a given start. -/
def mk_nodes (fhash : FieldName → Nat) : List FieldName → Nat → List StrNode
  | [], _ => []
  | n :: rest, i => ⟨n, n.length, fhash n, i⟩ :: mk_nodes fhash rest (i + 1)

/-- tuple_dictionary_new (over a plain name list, as
tuple_dictionary_new_impl reads one name per entry): zero names give a
dictionary with no backing hash at all; otherwise every name is inserted,
and a duplicate aborts the construction with no dictionary returned. -/
def tuple_dictionary_new (fhash : FieldName → Nat) (names : List FieldName) :
    Except DictErr TupleDictionary :=
  if names.length = 0 then .ok ⟨1, 0, [], none⟩
  else
    match build_names fhash names 0 [] with
    | none => .error .duplicateFieldName
    | some tab => .ok ⟨1, names.length, names, some tab⟩

/-- tuple_fieldno_by_name: report absent at once when the dictionary has no
backing hash, else look up (name, len, hash) and return the stored field
number. -/
def tuple_fieldno_by_name (d : TupleDictionary) (name : FieldName)
    (len h : Nat) : Option Nat :=
  match d.hash with
  | none => none
  | some tab => (mh_strnu32_find tab name len h).map StrNode.val

/-- Sign-valued comparison of two naturals, the per-byte step of strcmp. -/
def natCmp (a b : Nat) : Int :=
  if a < b then -1 else if b < a then 1 else 0

/-- Lexicographic comparison of lists over a sign-valued base comparison:
first differing element decides; a proper front segment is smaller (in C
the terminating zero byte of the shorter string loses against any name
byte). -/
def lexCmp {α : Type} (base : α → α → Int) : List α → List α → Int
  | [], [] => 0
  | [], _ :: _ => -1
  | _ :: _, [] => 1
  | x :: xs, y :: ys => if base x y = 0 then lexCmp base xs ys else base x y

/-- strcmp over name bytes, sign-valued. -/
def strcmp_bytes (a b : FieldName) : Int :=
  lexCmp natCmp a b

/-- tuple_dictionary_cmp: unequal field counts decide (fewer is smaller),
else the names are compared pairwise in declared order by strcmp.  The C
loop returns the raw strcmp value; the model keeps its sign. -/
def tuple_dictionary_cmp (a b : TupleDictionary) : Int :=
  if a.name_count ≠ b.name_count then
    (if a.name_count > b.name_count then 1 else -1)
  else lexCmp strcmp_bytes a.names b.names

/-- tuple_dictionary_swap: save both reference counts, exchange the whole
structures, restore each count. -/
def tuple_dictionary_swap (a b : TupleDictionary) :
    TupleDictionary × TupleDictionary :=
  let a_refs := a.refs
  let b_refs := b.refs
  let t := a
  let new_a : TupleDictionary := { b with refs := a_refs }
  let new_b : TupleDictionary := { t with refs := b_refs }
  (new_a, new_b)

/-! ## Secondary-index build pass (build_indexes) -/

/-- The index kinds of the build pass. -/
inductive IdxKind
  | HASH
  | TREE
deriving DecidableEq

/-- An index of a collection, with its kind and the records it holds. -/
structure Idx where
  kind : IdxKind
  records : List Tuple
deriving DecidableEq

/-- A collection (space): enabled flag and its index list, position 0
being the primary index.  The list holds the non-nil entries of the
nil-terminated C index array. -/
structure Space where
  enabled : Bool
  indexes : List Idx
deriving DecidableEq

/-- Modelled from the spec: the build method of TreeIndex (its tree module
is not among the sources) iterates the primary index from first to last
record and inserts each into the secondary index. -/
def tree_index_build (pk : Idx) (sec : Idx) : Idx :=
  pk.records.foldl (fun s t => { s with records := s.records ++ [t] }) sec

/-- The inner loop of build_indexes over the secondary indexes, in
declaration order: a TREE index is bulk-built against the primary, any
other kind is passed over by continue. -/
def build_secondary_loop (pk : Idx) : List Idx → List Idx
  | [] => []
  | i :: rest =>
    (if i.kind = IdxKind.TREE then tree_index_build pk i else i) ::
      build_secondary_loop pk rest

/-- build_indexes on one space: skip it when disabled, skip it when it has
no secondary index, else run the loop with index 0 as the primary. -/
def build_space (s : Space) : Space :=
  if s.enabled = false then s
  else
    match s.indexes with
    | pk :: sec1 :: secs =>
      { s with indexes := pk :: build_secondary_loop pk (sec1 :: secs) }
    | _ => s

/-- build_indexes over every space. -/
def build_indexes (spaces : List Space) : List Space :=
  spaces.map build_space

/-! ## Cluster server registration (cluster.cc) -/

/-- An opaque server UUID with decidable equality (tt_uuid compared by
tt_uuid_is_equal). -/
abbrev ServerUuid := Nat

/-- The part of struct recovery_state that cluster_add_server touches.
Modelled from the spec: the vector clock is kept as the list of server
ids registered as participants (the recovery module is not among the
sources); server_id 0 means the local id is unassigned. -/
structure RecoveryState where
  vclock : List Nat
  server_uuid : ServerUuid
  server_id : Nat
deriving DecidableEq

/-- Modelled from the spec: vclock_add_server registers a server id as a
participant of the vector clock (the vclock module is not among the
sources). -/
def vclock_add_server (v : List Nat) (id : Nat) : List Nat :=
  if id ∈ v then v else v ++ [id]

/-- cluster_add_server: always register the server id in the vector clock
of the recovery state; when the given UUID equals the own server UUID of
the recovery state, additionally assign the local server id (the source
asserts it was 0, i.e. unassigned). -/
def cluster_add_server (r : RecoveryState) (uuid : ServerUuid) (id : Nat) :
    RecoveryState :=
  let r2 : RecoveryState := { r with vclock := vclock_add_server r.vclock id }
  if r2.server_uuid = uuid then { r2 with server_id := id } else r2

end Tarantool

namespace Tarantool

/-! ## Lemmas about the open-addressing table -/

theorem mh_keys_cons_some (k : Nat) (v : Tuple) (rest : MhTab) :
    mh_keys (some (k, v) :: rest) = k :: mh_keys rest := by
  simp [mh_keys]

theorem mh_keys_cons_none (rest : MhTab) :
    mh_keys (none :: rest) = mh_keys rest := by
  simp [mh_keys]

theorem mh_get_eq_none_of_not_mem_keys :
    ∀ (h : MhTab) (k : Nat), k ∉ mh_keys h → mh_get h k = none := by
  intro h
  induction h with
  | nil => intro k _; rfl
  | cons s rest ih =>
    intro k hk
    cases s with
    | none =>
      rw [mh_keys_cons_none] at hk
      simpa [mh_get] using ih k hk
    | some p =>
      obtain ⟨k2, v⟩ := p
      rw [mh_keys_cons_some] at hk
      have hne : k2 ≠ k := fun he => hk (he ▸ List.mem_cons_self _ _)
      have hrest : k ∉ mh_keys rest := fun hm => hk (List.mem_cons_of_mem _ hm)
      simp [mh_get, hne, ih k hrest]

theorem mh_get_put_self : ∀ (h : MhTab) (k : Nat) (v : Tuple),
    mh_get (mh_put h k v) k = some v := by
  intro h
  induction h with
  | nil => intro k v; simp [mh_put, mh_get]
  | cons s rest ih =>
    intro k v
    by_cases hs : slot_has_key k s
    · simp [mh_put, hs, mh_get]
    · cases s with
      | none => simp [mh_put, hs, mh_get, ih]
      | some p =>
        obtain ⟨k2, v2⟩ := p
        have hne : k2 ≠ k := by simpa [slot_has_key] using hs
        simp [mh_put, hs, mh_get, hne, ih]

theorem mh_get_put_ne : ∀ (h : MhTab) (k k2 : Nat) (v : Tuple), k2 ≠ k →
    mh_get (mh_put h k v) k2 = mh_get h k2 := by
  intro h
  induction h with
  | nil =>
    intro k k2 v hne
    have hne2 : ¬ k = k2 := fun he => hne he.symm
    simp [mh_put, mh_get, hne2]
  | cons s rest ih =>
    intro k k2 v hne
    have hne2 : ¬ k = k2 := fun he => hne he.symm
    by_cases hs : slot_has_key k s
    · obtain ⟨v2, rfl⟩ : ∃ v2, s = some (k, v2) := by
        cases s with
        | none => simp [slot_has_key] at hs
        | some p =>
          obtain ⟨k3, v3⟩ := p
          have : k3 = k := by simpa [slot_has_key] using hs
          exact ⟨v3, by rw [this]⟩
      simp [mh_put, slot_has_key, mh_get, hne2]
    · cases s with
      | none => simp [mh_put, hs, mh_get, ih _ _ _ hne]
      | some p =>
        obtain ⟨k3, v3⟩ := p
        simp only [mh_put, hs, if_false, Bool.false_eq_true]
        by_cases h3 : k3 = k2
        · simp [mh_get, h3]
        · simp [mh_get, h3, ih _ _ _ hne]

theorem mh_size_cons_some (p : Nat × Tuple) (rest : MhTab) :
    mh_size (some p :: rest) = mh_size rest + 1 := by
  simp [mh_size, List.countP_cons]

theorem mh_size_cons_none (rest : MhTab) :
    mh_size (none :: rest) = mh_size rest := by
  simp [mh_size, List.countP_cons]

theorem mh_size_put_absent : ∀ (h : MhTab) (k : Nat) (v : Tuple),
    mh_get h k = none → mh_size (mh_put h k v) = mh_size h + 1 := by
  intro h
  induction h with
  | nil => intro k v _; simp [mh_put, mh_size, List.countP_cons]
  | cons s rest ih =>
    intro k v hget
    cases s with
    | none =>
      have : mh_get rest k = none := by simpa [mh_get] using hget
      simp [mh_put, slot_has_key, mh_size_cons_none, ih _ _ this]
    | some p =>
      obtain ⟨k2, v2⟩ := p
      have hne : k2 ≠ k := by
        intro he
        simp [mh_get, he] at hget
      have hrest : mh_get rest k = none := by simpa [mh_get, hne] using hget
      simp [mh_put, slot_has_key, hne, mh_size_cons_some, ih _ _ hrest]

theorem mh_size_put_present : ∀ (h : MhTab) (k : Nat) (v v2 : Tuple),
    mh_get h k = some v2 → mh_size (mh_put h k v) = mh_size h := by
  intro h
  induction h with
  | nil => intro k v v2 hget; simp [mh_get] at hget
  | cons s rest ih =>
    intro k v v2 hget
    cases s with
    | none =>
      have : mh_get rest k = some v2 := by simpa [mh_get] using hget
      simp [mh_put, slot_has_key, mh_size_cons_none, ih _ _ _ this]
    | some p =>
      obtain ⟨k2, v3⟩ := p
      by_cases he : k2 = k
      · subst he
        simp [mh_put, slot_has_key, mh_size_cons_some]
      · have hrest : mh_get rest k = some v2 := by simpa [mh_get, he] using hget
        simp [mh_put, slot_has_key, he, mh_size_cons_some, ih _ _ _ hrest]

theorem mh_del_absent : ∀ (h : MhTab) (k : Nat),
    mh_get h k = none → mh_del h k = h := by
  intro h
  induction h with
  | nil => intro k _; rfl
  | cons s rest ih =>
    intro k hget
    cases s with
    | none =>
      have : mh_get rest k = none := by simpa [mh_get] using hget
      simp [mh_del, slot_has_key, ih _ this]
    | some p =>
      obtain ⟨k2, v⟩ := p
      have hne : k2 ≠ k := by
        intro he
        simp [mh_get, he] at hget
      have hrest : mh_get rest k = none := by simpa [mh_get, hne] using hget
      simp [mh_del, slot_has_key, hne, ih _ hrest]

theorem mh_get_del_ne : ∀ (h : MhTab) (k k2 : Nat), k2 ≠ k →
    mh_get (mh_del h k) k2 = mh_get h k2 := by
  intro h
  induction h with
  | nil => intro k k2 _; rfl
  | cons s rest ih =>
    intro k k2 hne
    have hne2 : ¬ k = k2 := fun he => hne he.symm
    by_cases hs : slot_has_key k s
    · obtain ⟨v2, rfl⟩ : ∃ v2, s = some (k, v2) := by
        cases s with
        | none => simp [slot_has_key] at hs
        | some p =>
          obtain ⟨k3, v3⟩ := p
          have : k3 = k := by simpa [slot_has_key] using hs
          exact ⟨v3, by rw [this]⟩
      simp [mh_del, slot_has_key, mh_get, hne2]
    · cases s with
      | none => simp [mh_del, hs, mh_get, ih _ _ hne]
      | some p =>
        obtain ⟨k3, v3⟩ := p
        simp only [mh_del, hs, if_false, Bool.false_eq_true]
        by_cases h3 : k3 = k2
        · simp [mh_get, h3]
        · simp [mh_get, h3, ih _ _ hne]

theorem mh_get_del_self : ∀ (h : MhTab) (k : Nat), (mh_keys h).Nodup →
    mh_get (mh_del h k) k = none := by
  intro h
  induction h with
  | nil => intro k _; rfl
  | cons s rest ih =>
    intro k hwf
    cases s with
    | none =>
      rw [mh_keys_cons_none] at hwf
      simp [mh_del, slot_has_key, mh_get, ih _ hwf]
    | some p =>
      obtain ⟨k2, v⟩ := p
      rw [mh_keys_cons_some] at hwf
      by_cases he : k2 = k
      · subst he
        have : k2 ∉ mh_keys rest := (List.nodup_cons.mp hwf).1
        simp [mh_del, slot_has_key, mh_get,
          mh_get_eq_none_of_not_mem_keys rest k2 this]
      · simp [mh_del, slot_has_key, he, mh_get, ih _ (List.nodup_cons.mp hwf).2]

theorem mh_size_del_present : ∀ (h : MhTab) (k : Nat) (v : Tuple),
    mh_get h k = some v → mh_size (mh_del h k) + 1 = mh_size h := by
  intro h
  induction h with
  | nil => intro k v hget; simp [mh_get] at hget
  | cons s rest ih =>
    intro k v hget
    cases s with
    | none =>
      have : mh_get rest k = some v := by simpa [mh_get] using hget
      simp [mh_del, slot_has_key, mh_size_cons_none, ih _ _ this]
    | some p =>
      obtain ⟨k2, v2⟩ := p
      by_cases he : k2 = k
      · subst he
        simp [mh_del, slot_has_key, mh_size_cons_some, mh_size_cons_none]
      · have hrest : mh_get rest k = some v := by simpa [mh_get, he] using hget
        simp [mh_del, slot_has_key, he, mh_size_cons_some, ih _ _ hrest]

end Tarantool

namespace Tarantool

/-! ## Codec lemmas -/

theorem read_le_encode_4 (n : Nat) (hn : n < 2 ^ 32) :
    read_le 4 (encode_le 4 n) = some n := by
  have he : encode_le 4 n =
      [n % 256, n / 256 % 256, n / 256 / 256 % 256, n / 256 / 256 / 256 % 256] := rfl
  rw [he]
  show some (n % 256 % 256 + 256 * (n / 256 % 256 % 256 +
    256 * (n / 256 / 256 % 256 % 256 +
      256 * (n / 256 / 256 / 256 % 256 % 256 + 256 * 0)))) = some n
  congr 1
  omega

theorem read_le_encode_8 (n : Nat) (hn : n < 2 ^ 64) :
    read_le 8 (encode_le 8 n) = some n := by
  have he : encode_le 8 n =
      [n % 256, n / 256 % 256, n / 256 ^ 2 % 256, n / 256 ^ 3 % 256,
       n / 256 ^ 4 % 256, n / 256 ^ 5 % 256, n / 256 ^ 6 % 256,
       n / 256 ^ 7 % 256] := by
    show encode_le 8 n = _
    norm_num [encode_le, Nat.div_div_eq_div_mul]
  rw [he]
  show some (n % 256 % 256 + 256 * (n / 256 % 256 % 256 +
    256 * (n / 256 ^ 2 % 256 % 256 + 256 * (n / 256 ^ 3 % 256 % 256 +
    256 * (n / 256 ^ 4 % 256 % 256 + 256 * (n / 256 ^ 5 % 256 % 256 +
    256 * (n / 256 ^ 6 % 256 % 256 + 256 * (n / 256 ^ 7 % 256 % 256 +
      256 * 0)))))))) = some n
  congr 1
  omega

/-- A single byte below 128 is a complete varint header. -/
theorem load_varint32_single (b : Nat) (hb : b < 128) (rest : List Nat) :
    load_varint32 (b :: rest) = some (b, rest) := by
  have h1 : b % 256 < 128 := by omega
  simp only [load_varint32, load_varint32_aux, h1, if_true]
  congr 1
  have : b % 128 = b := Nat.mod_eq_of_lt hb
  simp [this]
  omega

end Tarantool

namespace Tarantool

/-! ## Claims C4, C3, C1 -/

/-- C4: find on a numeric hash index fails with the invalid-key-type error
whenever the decoded length header of the key differs from the fixed key
width (find is a pure query here, so the table cannot be modified), and
for a key whose length header decodes to the fixed width it succeeds and
looks up exactly the little-endian integer value of those bytes; the
Hash32Index instance is width 4 (hash32_find) and the Hash64Index
instance is width 8 (hash64_find). -/
theorem num_hash_find_spec (w : Nat) (h : MhTab) :
    (∀ f sz rest, load_varint32 f = some (sz, rest) → sz ≠ w →
      num_hash_find w h f = .error .invalidKeyType) ∧
    (∀ f rest n, load_varint32 f = some (w, rest) → read_le w rest = some n →
      num_hash_find w h f = .ok (mh_get h n)) ∧
    (∀ n, n < 2 ^ 32 → hash32_find h (4 :: encode_le 4 n) = .ok (mh_get h n)) ∧
    (∀ n, n < 2 ^ 64 → hash64_find h (8 :: encode_le 8 n) = .ok (mh_get h n)) := by
  refine ⟨?_, ?_, ?_, ?_⟩
  · intro f sz rest h1 h2
    simp [num_hash_find, load_num_field, h1, h2]
  · intro f rest n h1 h2
    simp [num_hash_find, load_num_field, h1, h2]
  · intro n hn
    have h1 : load_varint32 (4 :: encode_le 4 n) = some (4, encode_le 4 n) :=
      load_varint32_single 4 (by omega) _
    simp [hash32_find, num_hash_find, load_num_field, h1, read_le_encode_4 n hn]
  · intro n hn
    have h1 : load_varint32 (8 :: encode_le 8 n) = some (8, encode_le 8 n) :=
      load_varint32_single 8 (by omega) _
    simp [hash64_find, num_hash_find, load_num_field, h1, read_le_encode_8 n hn]

/-- C4 witness: a key field whose length header decodes to 5 makes the
32-bit find fail with the invalid-key-type error. -/
theorem num_hash_find_spec_witness :
    hash32_find ([] : MhTab) [5, 0, 0, 0, 0, 0] = .error .invalidKeyType :=
  (num_hash_find_spec 4 ([] : MhTab)).1 [5, 0, 0, 0, 0, 0] 5 [0, 0, 0, 0, 0]
    rfl (by decide)

/-- C3: remove on a numeric hash index decodes the key k of the given
record and deletes the entry stored under k when one is present (a later
get of k reports absent, other keys are untouched), is a no-op rather
than an error when no entry is stored under k, and is decided by the key
alone: any record whose indexed field decodes to the same key produces
the same result.  Hash32Index is width 4, Hash64Index width 8. -/
theorem num_hash_remove_spec (w fieldno : Nat) (h : MhTab) (t : Tuple)
    (f rest : List Nat) (k : Nat)
    (hwf : (mh_keys h).Nodup)
    (h1 : tuple_field t fieldno = some f)
    (h2 : load_varint32 f = some (w, rest))
    (h3 : read_le w rest = some k) :
    (num_hash_remove w fieldno h t =
      .ok (match mh_get h k with
           | some _ => mh_del h k
           | none => h)) ∧
    (∀ h2t, num_hash_remove w fieldno h t = .ok h2t →
      mh_get h2t k = none ∧
      (∀ k2, k2 ≠ k → mh_get h2t k2 = mh_get h k2) ∧
      (mh_get h k = none → h2t = h)) ∧
    (∀ t2 f2 rest2, tuple_field t2 fieldno = some f2 →
      load_varint32 f2 = some (w, rest2) → read_le w rest2 = some k →
      num_hash_remove w fieldno h t2 = num_hash_remove w fieldno h t) := by
  have heq : num_hash_remove w fieldno h t =
      .ok (match mh_get h k with
           | some _ => mh_del h k
           | none => h) := by
    simp [num_hash_remove, load_num_field, h1, h2, h3]
  refine ⟨heq, ?_, ?_⟩
  · intro h2t hok
    rw [heq] at hok
    cases hget : mh_get h k with
    | none =>
      rw [hget] at hok
      have : h2t = h := by injection hok with he; exact he.symm
      subst this
      exact ⟨hget, fun _ _ => rfl, fun _ => rfl⟩
    | some v =>
      rw [hget] at hok
      have : h2t = mh_del h k := by injection hok with he; exact he.symm
      subst this
      refine ⟨mh_get_del_self h k hwf, fun k2 hk2 => mh_get_del_ne h k k2 hk2, ?_⟩
      intro habs
      exact Option.noConfusion habs
  · intro t2 f2 rest2 g1 g2 g3
    rw [heq]
    simp [num_hash_remove, load_num_field, g1, g2, g3]

/-- C3 witness: removing the record with key 1 from a table holding key 1
tombstones its slot. -/
theorem num_hash_remove_spec_witness :
    hash32_remove 0 [some (1, [[4, 1, 0, 0, 0]])] [[4, 1, 0, 0, 0]] =
      .ok [none] := by
  have hx := num_hash_remove_spec 4 0 [some (1, [[4, 1, 0, 0, 0]])]
    [[4, 1, 0, 0, 0]] [4, 1, 0, 0, 0] [1, 0, 0, 0] 1
    (by decide) rfl rfl rfl
  exact hx.1.trans rfl

/-- C1 (amended): replace on a numeric hash index first deletes the entry
stored under the key of the old record when the old record is non-null
(even when old and new keys are equal), then puts the new record under
the new key, overwriting any pre-existing entry there; afterwards find of
the new key returns the new record, keys other than the old and new keys
are untouched, and when old and new share the same key AND an entry is
currently stored under that key, the size is unchanged.  (The original
claim asserts the size consequence without the presence condition; the
counterexample below refutes that on an empty index.)  Hash32Index is
width 4, Hash64Index width 8. -/
theorem num_hash_replace_spec (w fieldno : Nat) (h : MhTab) (ot nt : Tuple)
    (nf nrest ofld orest : List Nat) (nk osz okk : Nat)
    (hwf : (mh_keys h).Nodup)
    (h1 : tuple_field nt fieldno = some nf)
    (h2 : load_varint32 nf = some (w, nrest))
    (h3 : read_le w nrest = some nk)
    (h4 : tuple_field ot fieldno = some ofld)
    (h5 : load_varint32 ofld = some (osz, orest))
    (h6 : read_le w orest = some okk) :
    (num_hash_replace w fieldno h (some ot) nt =
      .ok (mh_put (match mh_get h okk with
                   | some _ => mh_del h okk
                   | none => h) nk nt)) ∧
    (num_hash_replace w fieldno h none nt = .ok (mh_put h nk nt)) ∧
    (∀ h2t, num_hash_replace w fieldno h (some ot) nt = .ok h2t →
      mh_get h2t nk = some nt ∧
      (okk ≠ nk → mh_get h2t okk = none) ∧
      (∀ k, k ≠ nk → k ≠ okk → mh_get h2t k = mh_get h k) ∧
      (okk = nk → (mh_get h nk).isSome = true → mh_size h2t = mh_size h)) := by
  have heq : num_hash_replace w fieldno h (some ot) nt =
      .ok (mh_put (match mh_get h okk with
                   | some _ => mh_del h okk
                   | none => h) nk nt) := by
    simp [num_hash_replace, load_num_field, load_num_field_unchecked,
      h1, h2, h3, h4, h5, h6]
  refine ⟨heq, ?_, ?_⟩
  · simp [num_hash_replace, load_num_field, h1, h2, h3]
  · intro h2t hok
    rw [heq] at hok
    have hval : h2t = mh_put (match mh_get h okk with
                              | some _ => mh_del h okk
                              | none => h) nk nt := by
      injection hok with he; exact he.symm
    subst hval
    refine ⟨mh_get_put_self _ nk nt, ?_, ?_, ?_⟩
    · intro hne
      rw [mh_get_put_ne _ nk okk nt hne]
      cases hget : mh_get h okk with
      | none => simp [hget]
      | some v => simp [hget, mh_get_del_self h okk hwf]
    · intro k hk1 hk2
      rw [mh_get_put_ne _ nk k nt hk1]
      cases hget : mh_get h okk with
      | none => simp [hget]
      | some v => simp [hget, mh_get_del_ne h okk k hk2]
    · intro hkk hsome
      subst hkk
      obtain ⟨v, hv⟩ : ∃ v, mh_get h okk = some v :=
        Option.isSome_iff_exists.mp hsome
      rw [hv]
      rw [mh_size_put_absent _ okk nt (mh_get_del_self h okk hwf)]
      exact mh_size_del_present h okk v hv

/-- C1 witness: replacing the record under key 1 by a new record with the
same key 1, while key 1 is present, tombstones the old slot and occupies
a fresh one; by the theorem the size is unchanged and find returns the
new record. -/
theorem num_hash_replace_spec_witness :
    hash32_replace 0 [some (1, [[4, 1, 0, 0, 0]])] (some [[4, 1, 0, 0, 0]])
      [[4, 1, 0, 0, 0], [9]] = .ok [none, some (1, [[4, 1, 0, 0, 0], [9]])] := by
  have hx := num_hash_replace_spec 4 0 [some (1, [[4, 1, 0, 0, 0]])]
    [[4, 1, 0, 0, 0]] [[4, 1, 0, 0, 0], [9]]
    [4, 1, 0, 0, 0] [1, 0, 0, 0] [4, 1, 0, 0, 0] [1, 0, 0, 0]
    1 4 1 (by decide) rfl rfl rfl rfl rfl rfl
  exact hx.1.trans rfl

/-- C1 counterexample: on the EMPTY Hash32 index, replace with old and new
records sharing key 1 (both key fields decode to 1) grows the size from 0
to 1, refuting the unconditional size-unchanged consequence of the
claim. -/
theorem hash32_replace_same_key_size_cex :
    tuple_field ([[4, 1, 0, 0, 0]] : Tuple) 0 = some [4, 1, 0, 0, 0] ∧
    tuple_field ([[4, 1, 0, 0, 0], [9]] : Tuple) 0 = some [4, 1, 0, 0, 0] ∧
    load_varint32 [4, 1, 0, 0, 0] = some (4, [1, 0, 0, 0]) ∧
    read_le 4 [1, 0, 0, 0] = some 1 ∧
    hash32_replace 0 ([] : MhTab) (some [[4, 1, 0, 0, 0]])
      [[4, 1, 0, 0, 0], [9]] = .ok [some (1, [[4, 1, 0, 0, 0], [9]])] ∧
    mh_size ([] : MhTab) = 0 ∧
    mh_size [some (1, ([[4, 1, 0, 0, 0], [9]] : Tuple))] = 1 :=
  ⟨rfl, rfl, rfl, rfl, rfl, rfl, rfl⟩

end Tarantool

namespace Tarantool

/-! ## Iterator lemmas and claim C2 -/

theorem mh_slot_get_of_get_none : ∀ (slots : MhTab) (k : Nat),
    mh_get slots k = none → mh_slot_get slots k = slots.length := by
  intro slots
  induction slots with
  | nil => intro k _; rfl
  | cons s rest ih =>
    intro k hget
    cases s with
    | none =>
      have : mh_get rest k = none := by simpa [mh_get] using hget
      simp [mh_slot_get, slot_has_key, ih k this]
    | some p =>
      obtain ⟨k2, v⟩ := p
      have hne : k2 ≠ k := by
        intro he
        simp [mh_get, he] at hget
      have hrest : mh_get rest k = none := by simpa [mh_get, hne] using hget
      simp [mh_slot_get, slot_has_key, hne, ih k hrest]

theorem scan_list_at_slot_get : ∀ (slots : MhTab) (k : Nat) (t : Tuple),
    mh_get slots k = some t →
    scan_list (slots.drop (mh_slot_get slots k)) = some (t, 0) := by
  intro slots
  induction slots with
  | nil => intro k t hget; simp [mh_get] at hget
  | cons s rest ih =>
    intro k t hget
    cases s with
    | none =>
      have : mh_get rest k = some t := by simpa [mh_get] using hget
      simpa [mh_slot_get, slot_has_key] using ih k t this
    | some p =>
      obtain ⟨k2, v⟩ := p
      by_cases he : k2 = k
      · subst he
        have : t = v := by
          have := hget
          simp [mh_get] at this
          exact this.symm
        subst this
        simp [mh_slot_get, slot_has_key, scan_list]
      · have hrest : mh_get rest k = some t := by simpa [mh_get, he] using hget
        simpa [mh_slot_get, slot_has_key, he] using ih k t hrest

theorem iterator_next_equal_call_done (it : HashIterator)
    (hd : it.next_equal = .nextEqual) :
    iterator_next_equal_call it = (none, it) := by
  simp [iterator_next_equal_call, hd]

theorem nth_equal_advance_done (it : HashIterator)
    (hd : it.next_equal = .nextEqual) :
    ∀ n, nth_equal_advance it n = none := by
  intro n
  induction n with
  | zero => simp [nth_equal_advance, iterator_next_equal_call_done it hd]
  | succ m ih =>
    simp [nth_equal_advance, iterator_next_equal_call_done it hd, ih]

/-- C2: the keyed initIterator of a numeric hash index positions the
cursor at the slot the key lookup yields and installs
iterator_first_equal as the equal-match advance.  When the key is
present the first equal-match advance yields exactly the record stored
under that key and every later advance yields end-of-sequence; when the
key is absent every advance (the first included) yields end-of-sequence;
and any iterator whose advance has been swapped to iterator_next_equal
yields end-of-sequence forever without changing state, so nothing short
of re-running initIterator can resume it.  Hash32Index uses width 4. -/
theorem num_hash_keyed_iterator_spec (w : Nat) (slots : MhTab)
    (key rest : List Nat) (k : Nat)
    (h1 : load_varint32 key = some (w, rest))
    (h2 : read_le w rest = some k) :
    (∃ it, num_hash_initIterator_keyed w slots key = .ok it ∧
      it.slots = slots ∧ it.next_equal = .firstEqual ∧
      (∀ t, mh_get slots k = some t →
        nth_equal_advance it 0 = some t ∧
        ∀ n, 1 ≤ n → nth_equal_advance it n = none) ∧
      (mh_get slots k = none → ∀ n, nth_equal_advance it n = none)) ∧
    (∀ it2 : HashIterator, it2.next_equal = .nextEqual →
      iterator_next_equal_call it2 = (none, it2)) := by
  constructor
  · refine ⟨⟨slots, mh_slot_get slots k, .firstEqual⟩, ?_, rfl, rfl, ?_, ?_⟩
    · simp [num_hash_initIterator_keyed, load_num_field, h1, h2]
    · intro t hget
      have hscan := scan_list_at_slot_get slots k t hget
      constructor
      · simp [nth_equal_advance, iterator_next_equal_call, hash_iterator_next,
          hscan]
      · intro n hn
        obtain ⟨m, rfl⟩ : ∃ m, n = m + 1 := ⟨n - 1, by omega⟩
        have hstep : (iterator_next_equal_call
            ⟨slots, mh_slot_get slots k, .firstEqual⟩).2 =
            ⟨slots, mh_slot_get slots k + 0 + 1, .nextEqual⟩ := by
          simp [iterator_next_equal_call, hash_iterator_next, hscan]
        simp only [nth_equal_advance, hstep]
        exact nth_equal_advance_done _ rfl m
    · intro hget n
      have hpos := mh_slot_get_of_get_none slots k hget
      have hscan : scan_list (slots.drop (mh_slot_get slots k)) = none := by
        rw [hpos, List.drop_length]
        rfl
      cases n with
      | zero =>
        simp [nth_equal_advance, iterator_next_equal_call, hash_iterator_next,
          hscan]
      | succ m =>
        have hstep : (iterator_next_equal_call
            ⟨slots, mh_slot_get slots k, .firstEqual⟩).2 =
            ⟨slots, slots.length, .nextEqual⟩ := by
          simp [iterator_next_equal_call, hash_iterator_next, hscan]
        simp only [nth_equal_advance, hstep]
        exact nth_equal_advance_done _ rfl m
  · intro it2 hd
    exact iterator_next_equal_call_done it2 hd

/-- C2 witness: over the one-slot table holding key 1, the keyed iterator
for key 1 yields the stored record once, then end-of-sequence twice. -/
theorem num_hash_keyed_iterator_spec_witness :
    ∃ it, num_hash_initIterator_keyed 4 [some (1, [[4, 1, 0, 0, 0]])]
        [4, 1, 0, 0, 0] = .ok it ∧
      nth_equal_advance it 0 = some [[4, 1, 0, 0, 0]] ∧
      nth_equal_advance it 1 = none ∧
      nth_equal_advance it 2 = none := by
  obtain ⟨⟨it, hok, _, _, hp, _⟩, _⟩ :=
    num_hash_keyed_iterator_spec 4 [some (1, [[4, 1, 0, 0, 0]])]
      [4, 1, 0, 0, 0] [1, 0, 0, 0] 1 rfl rfl
  obtain ⟨ha, hb⟩ := hp [[4, 1, 0, 0, 0]] rfl
  exact ⟨it, hok, ha, hb 1 (by omega), hb 2 (by omega)⟩

end Tarantool

namespace Tarantool

/-! ## Dictionary lemmas and claim C5 -/

theorem find?_append_of_none {α : Type} (p : α → Bool) :
    ∀ (l1 l2 : List α), l1.find? p = none → (l1 ++ l2).find? p = l2.find? p := by
  intro l1
  induction l1 with
  | nil => intro l2 _; simp
  | cons x rest ih =>
    intro l2 hf
    by_cases hpx : p x
    · rw [List.find?_cons_of_pos _ hpx] at hf
      exact Option.noConfusion hf
    · rw [List.find?_cons_of_neg _ hpx] at hf
      simpa [List.find?_cons_of_neg _ hpx] using ih l2 hf

theorem find?_append_of_some {α : Type} (p : α → Bool) :
    ∀ (l1 l2 : List α) (a : α), l1.find? p = some a →
      (l1 ++ l2).find? p = some a := by
  intro l1
  induction l1 with
  | nil => intro l2 a hf; exact Option.noConfusion hf
  | cons x rest ih =>
    intro l2 a hf
    by_cases hpx : p x
    · rw [List.find?_cons_of_pos _ hpx] at hf
      simpa [List.find?_cons_of_pos _ hpx] using hf
    · rw [List.find?_cons_of_neg _ hpx] at hf
      simpa [List.find?_cons_of_neg _ hpx] using ih l2 a hf

/-- A node built from a full name matches a full-length query exactly when
the names coincide (with equal length and hash). -/
theorem strnode_match_mk (m n : FieldName) (hm fh i : Nat) :
    strnode_match m m.length hm ⟨n, n.length, fh, i⟩ =
      (n.length == m.length && (fh == hm && n == m)) := by
  simp [strnode_match, List.take_length]

theorem strnode_match_mk_self (n : FieldName) (fh i : Nat) :
    strnode_match n n.length fh ⟨n, n.length, fh, i⟩ = true := by
  simp [strnode_match_mk]

theorem strnode_match_mk_ne (m n : FieldName) (hm fh i : Nat) (hne : n ≠ m) :
    strnode_match m m.length hm ⟨n, n.length, fh, i⟩ = false := by
  simp [strnode_match_mk, hne]

theorem mk_nodes_find_self (fhash : FieldName → Nat) :
    ∀ (names : List FieldName) (j i : Nat) (hi : i < names.length),
      names.Nodup →
      (mk_nodes fhash names j).find?
          (strnode_match names[i] (names[i]).length (fhash names[i])) =
        some ⟨names[i], (names[i]).length, fhash names[i], j + i⟩ := by
  intro names
  induction names with
  | nil => intro j i hi _; simp at hi
  | cons n rest ih =>
    intro j i hi hnd
    cases i with
    | zero =>
      simp only [List.getElem_cons_zero, mk_nodes, Nat.add_zero]
      rw [List.find?_cons_of_pos _ (strnode_match_mk_self n (fhash n) j)]
    | succ i2 =>
      have hi2 : i2 < rest.length := by simpa using hi
      simp only [List.getElem_cons_succ, mk_nodes]
      have hmem : rest[i2] ∈ rest := List.getElem_mem hi2
      have hne : n ≠ rest[i2] := by
        intro he
        exact (List.nodup_cons.mp hnd).1 (he ▸ hmem)
      rw [List.find?_cons_of_neg _ (by
        rw [strnode_match_mk_ne rest[i2] n (fhash rest[i2]) (fhash n) j hne]
        exact Bool.false_ne_true)]
      rw [show j + (i2 + 1) = (j + 1) + i2 by omega]
      exact ih (j + 1) i2 hi2 (List.nodup_cons.mp hnd).2

theorem mk_nodes_find_absent (fhash : FieldName → Nat) :
    ∀ (names : List FieldName) (j : Nat) (m : FieldName) (hm : Nat),
      m ∉ names →
      (mk_nodes fhash names j).find? (strnode_match m m.length hm) = none := by
  intro names
  induction names with
  | nil => intro j m hm _; rfl
  | cons n rest ih =>
    intro j m hm hnotin
    have hne : n ≠ m := fun he => hnotin (he ▸ List.mem_cons_self _ _)
    simp only [mk_nodes]
    rw [List.find?_cons_of_neg _ (by
      rw [strnode_match_mk_ne m n hm (fhash n) j hne]
      exact Bool.false_ne_true)]
    exact ih (j + 1) m hm (fun hmem => hnotin (List.mem_cons_of_mem _ hmem))

theorem build_names_success (fhash : FieldName → Nat) :
    ∀ (names : List FieldName) (i : Nat) (tab : List StrNode),
      names.Nodup →
      (∀ n ∈ names, mh_strnu32_find tab n n.length (fhash n) = none) →
      build_names fhash names i tab = some (tab ++ mk_nodes fhash names i) := by
  intro names
  induction names with
  | nil => intro i tab _ _; simp [build_names, mk_nodes]
  | cons n rest ih =>
    intro i tab hnd hp
    have hn : mh_strnu32_find tab n n.length (fhash n) = none :=
      hp n (List.mem_cons_self _ _)
    have hset : tuple_dictionary_set_name fhash tab n i =
        some (tab ++ [⟨n, n.length, fhash n, i⟩]) := by
      simp [tuple_dictionary_set_name, hn]
    have hp2 : ∀ m ∈ rest,
        mh_strnu32_find (tab ++ [⟨n, n.length, fhash n, i⟩]) m m.length
          (fhash m) = none := by
      intro m hmem
      have hne : n ≠ m := by
        intro he
        exact (List.nodup_cons.mp hnd).1 (he ▸ hmem)
      unfold mh_strnu32_find
      rw [find?_append_of_none _ _ _ (hp m (List.mem_cons_of_mem _ hmem))]
      rw [List.find?_cons_of_neg _ (by
        rw [strnode_match_mk_ne m n (fhash m) (fhash n) i hne]
        exact Bool.false_ne_true)]
      rfl
    simp only [build_names, hset]
    rw [ih (i + 1) _ (List.nodup_cons.mp hnd).2 hp2]
    simp [mk_nodes]

theorem build_names_conflict (fhash : FieldName → Nat) :
    ∀ (names : List FieldName) (i : Nat) (tab : List StrNode),
      (¬ names.Nodup ∨
        ∃ n ∈ names, (mh_strnu32_find tab n n.length (fhash n)).isSome = true) →
      build_names fhash names i tab = none := by
  intro names
  induction names with
  | nil =>
    intro i tab hc
    rcases hc with hc | ⟨n, hn, _⟩
    · exact absurd List.nodup_nil hc
    · simp at hn
  | cons n rest ih =>
    intro i tab hc
    cases hfind : mh_strnu32_find tab n n.length (fhash n) with
    | some nd =>
      simp [build_names, tuple_dictionary_set_name, hfind]
    | none =>
      have hset : tuple_dictionary_set_name fhash tab n i =
          some (tab ++ [⟨n, n.length, fhash n, i⟩]) := by
        simp [tuple_dictionary_set_name, hfind]
      simp only [build_names, hset]
      apply ih (i + 1)
      rcases hc with hnd | ⟨m, hm, hsome⟩
      · by_cases hmem : n ∈ rest
        · right
          refine ⟨n, hmem, ?_⟩
          unfold mh_strnu32_find
          rw [find?_append_of_none _ _ _ hfind]
          rw [List.find?_cons_of_pos _ (strnode_match_mk_self n (fhash n) i)]
          rfl
        · left
          intro hnd2
          exact hnd (List.nodup_cons.mpr ⟨hmem, hnd2⟩)
      · rcases List.mem_cons.mp hm with rfl | hm2
        · rw [hfind] at hsome
          exact Bool.noConfusion hsome
        · right
          refine ⟨m, hm2, ?_⟩
          obtain ⟨a, ha⟩ := Option.isSome_iff_exists.mp hsome
          unfold mh_strnu32_find at ha ⊢
          rw [find?_append_of_some _ _ _ _ ha]
          rfl

/-- C5: dictionary construction from a name list with two identical names
fails with the duplicate-field-name error and returns no dictionary; for
pairwise-distinct names it succeeds, and in the resulting dictionary the
lookup of the name at position i (with its length and its hash as
computed by the external hash function) returns field number i, while the
lookup of any name not in the list (with its length, under any hash
value) returns absent. -/
theorem tuple_dictionary_new_spec (fhash : FieldName → Nat)
    (names : List FieldName) :
    (¬ names.Nodup →
      tuple_dictionary_new fhash names = .error .duplicateFieldName) ∧
    (names.Nodup → ∃ d, tuple_dictionary_new fhash names = .ok d ∧
      d.names = names ∧ d.name_count = names.length ∧
      (∀ i (hi : i < names.length),
        tuple_fieldno_by_name d names[i] (names[i]).length (fhash names[i]) =
          some i) ∧
      (∀ m, m ∉ names → ∀ hm,
        tuple_fieldno_by_name d m m.length hm = none)) := by
  constructor
  · intro hnd
    have hne : names ≠ [] := fun he => hnd (he ▸ List.nodup_nil)
    have hlen : ¬ names.length = 0 := fun he =>
      hne (List.length_eq_zero.mp he)
    have hb := build_names_conflict fhash names 0 [] (Or.inl hnd)
    simp [tuple_dictionary_new, hlen, hb]
  · intro hnd
    by_cases hlen : names.length = 0
    · have he : names = [] := List.length_eq_zero.mp hlen
      subst he
      refine ⟨⟨1, 0, [], none⟩, by simp [tuple_dictionary_new], rfl, rfl, ?_, ?_⟩
      · intro i hi
        simp at hi
      · intro m _ hm
        simp [tuple_fieldno_by_name]
    · have hb := build_names_success fhash names 0 [] hnd (fun n _ => rfl)
      rw [List.nil_append] at hb
      refine ⟨⟨1, names.length, names, some (mk_nodes fhash names 0)⟩,
        by simp [tuple_dictionary_new, hlen, hb], rfl, rfl, ?_, ?_⟩
      · intro i hi
        have hf := mk_nodes_find_self fhash names 0 i hi hnd
        simp [tuple_fieldno_by_name, mh_strnu32_find, hf]
      · intro m hm hmh
        have hf := mk_nodes_find_absent fhash names 0 m hmh hm
        simp [tuple_fieldno_by_name, mh_strnu32_find, hf]

/-- C5 witness: the list holding the name a twice makes construction fail
with the duplicate-field-name error (97 is the byte of the letter a). -/
theorem tuple_dictionary_new_spec_witness :
    tuple_dictionary_new (fun _ => 0) [[97], [98], [97]] =
      .error .duplicateFieldName :=
  (tuple_dictionary_new_spec (fun _ => 0) [[97], [98], [97]]).1 (by decide)

end Tarantool

namespace Tarantool

/-! ## Comparison lemmas and claims C6, C7, C8 -/

theorem natCmp_vals (x y : Nat) : natCmp x y = -1 ∨ natCmp x y = 0 ∨ natCmp x y = 1 := by
  unfold natCmp
  split_ifs <;> omega

theorem natCmp_eq_zero (x y : Nat) : natCmp x y = 0 ↔ x = y := by
  unfold natCmp
  constructor
  · intro h
    split_ifs at h <;> omega
  · intro h
    subst h
    simp

theorem natCmp_antisym (x y : Nat) : natCmp y x = -(natCmp x y) := by
  unfold natCmp
  rcases Nat.lt_trichotomy x y with h | h | h
  · simp only [if_pos h, if_neg (show ¬ y < x by omega)]
    decide
  · subst h
    simp
  · simp only [if_pos h, if_neg (show ¬ x < y by omega)]

theorem natCmp_trans_neg (x y z : Nat) :
    natCmp x y = -1 → natCmp y z = -1 → natCmp x z = -1 := by
  intro h1 h2
  have hxy : x < y := by
    by_contra hc
    unfold natCmp at h1
    rw [if_neg hc] at h1
    split_ifs at h1
  have hyz : y < z := by
    by_contra hc
    unfold natCmp at h2
    rw [if_neg hc] at h2
    split_ifs at h2
  unfold natCmp
  rw [if_pos (show x < z by omega)]

theorem lexCmp_vals {α : Type} (base : α → α → Int)
    (hv : ∀ x y, base x y = -1 ∨ base x y = 0 ∨ base x y = 1) :
    ∀ l m, lexCmp base l m = -1 ∨ lexCmp base l m = 0 ∨ lexCmp base l m = 1 := by
  intro l
  induction l with
  | nil => intro m; cases m <;> simp [lexCmp]
  | cons x xs ih =>
    intro m
    cases m with
    | nil => simp [lexCmp]
    | cons y ys =>
      by_cases hb : base x y = 0
      · simpa [lexCmp, hb] using ih ys
      · simpa [lexCmp, hb] using hv x y

theorem lexCmp_eq_zero {α : Type} (base : α → α → Int)
    (h0 : ∀ x y, base x y = 0 ↔ x = y) :
    ∀ l m, lexCmp base l m = 0 ↔ l = m := by
  intro l
  induction l with
  | nil =>
    intro m
    cases m with
    | nil => simp [lexCmp]
    | cons y ys => simp [lexCmp]
  | cons x xs ih =>
    intro m
    cases m with
    | nil => simp [lexCmp]
    | cons y ys =>
      by_cases hb : base x y = 0
      · have hxy : x = y := (h0 x y).mp hb
        subst hxy
        simp [lexCmp, hb, ih ys]
      · have hxy : x ≠ y := fun he => hb ((h0 x y).mpr he)
        simp [lexCmp, hb, hxy]

theorem lexCmp_antisym {α : Type} (base : α → α → Int)
    (ha : ∀ x y, base y x = -(base x y)) :
    ∀ l m, lexCmp base m l = -(lexCmp base l m) := by
  intro l
  induction l with
  | nil => intro m; cases m <;> simp [lexCmp]
  | cons x xs ih =>
    intro m
    cases m with
    | nil => simp [lexCmp]
    | cons y ys =>
      by_cases hb : base x y = 0
      · have hb2 : base y x = 0 := by rw [ha x y, hb]; rfl
        simp [lexCmp, hb, hb2, ih ys]
      · have hb2 : base y x ≠ 0 := by
          rw [ha x y]
          simpa using hb
        simp [lexCmp, hb, hb2, ha x y]

theorem lexCmp_trans_neg {α : Type} (base : α → α → Int)
    (h0 : ∀ x y, base x y = 0 ↔ x = y)
    (ht : ∀ x y z, base x y = -1 → base y z = -1 → base x z = -1) :
    ∀ l m n, lexCmp base l m = -1 → lexCmp base m n = -1 →
      lexCmp base l n = -1 := by
  intro l
  induction l with
  | nil =>
    intro m n hlm hmn
    cases m with
    | nil => simp [lexCmp] at hlm
    | cons y ys =>
      cases n with
      | nil => simp [lexCmp] at hmn
      | cons z zs => simp [lexCmp]
  | cons x xs ih =>
    intro m n hlm hmn
    cases m with
    | nil => simp [lexCmp] at hlm
    | cons y ys =>
      cases n with
      | nil => simp [lexCmp] at hmn
      | cons z zs =>
        by_cases h1 : base x y = 0
        · have hxy : x = y := (h0 x y).mp h1
          subst hxy
          rw [lexCmp] at hlm
          rw [if_pos h1] at hlm
          by_cases h2 : base x z = 0
          · have hxz : x = z := (h0 x z).mp h2
            subst hxz
            rw [lexCmp] at hmn
            rw [if_pos h2] at hmn
            simp only [lexCmp, if_pos h2]
            exact ih ys zs hlm hmn
          · rw [lexCmp] at hmn
            rw [if_neg h2] at hmn
            simp only [lexCmp, if_neg h2]
            exact hmn
        · rw [lexCmp] at hlm
          rw [if_neg h1] at hlm
          by_cases h2 : base y z = 0
          · have hyz : y = z := (h0 y z).mp h2
            subst hyz
            simp only [lexCmp, if_neg h1]
            exact hlm
          · rw [lexCmp] at hmn
            rw [if_neg h2] at hmn
            have h3 : base x z = -1 := ht x y z hlm hmn
            have h4 : ¬ base x z = 0 := by rw [h3]; omega
            simp only [lexCmp, if_neg h4]
            exact h3

theorem strcmp_bytes_vals (a b : FieldName) :
    strcmp_bytes a b = -1 ∨ strcmp_bytes a b = 0 ∨ strcmp_bytes a b = 1 :=
  lexCmp_vals natCmp natCmp_vals a b

theorem strcmp_bytes_eq_zero (a b : FieldName) : strcmp_bytes a b = 0 ↔ a = b :=
  lexCmp_eq_zero natCmp natCmp_eq_zero a b

theorem strcmp_bytes_antisym (a b : FieldName) :
    strcmp_bytes b a = -(strcmp_bytes a b) :=
  lexCmp_antisym natCmp natCmp_antisym a b

theorem strcmp_bytes_trans_neg (a b c : FieldName) :
    strcmp_bytes a b = -1 → strcmp_bytes b c = -1 → strcmp_bytes a c = -1 :=
  lexCmp_trans_neg natCmp natCmp_eq_zero natCmp_trans_neg a b c

/-- C6: tuple_dictionary_cmp behaves as a total order on dictionaries,
comparing first by field count (fewer fields is smaller) and, at equal
counts, lexicographically by the names in declared order: its value is
always a sign, it is antisymmetric and transitive, it reports 0 exactly
for equal name sequences (for dictionaries whose stored count matches
their name array, as every constructed dictionary does), a smaller field
count forces -1, equal counts reduce to the lexicographic name
comparison, and in particular the dictionary of [a] is smaller than that
of [a, b] while that of [a, c] is greater than that of [a, b] (97, 98, 99
are the bytes of a, b, c). -/
theorem tuple_dictionary_cmp_spec :
    (∀ a b : TupleDictionary, tuple_dictionary_cmp a b = -1 ∨
      tuple_dictionary_cmp a b = 0 ∨ tuple_dictionary_cmp a b = 1) ∧
    (∀ a b : TupleDictionary,
      tuple_dictionary_cmp b a = -(tuple_dictionary_cmp a b)) ∧
    (∀ a b c : TupleDictionary, tuple_dictionary_cmp a b = -1 →
      tuple_dictionary_cmp b c = -1 → tuple_dictionary_cmp a c = -1) ∧
    (∀ a b : TupleDictionary, a.name_count = a.names.length →
      b.name_count = b.names.length →
      (tuple_dictionary_cmp a b = 0 ↔ a.names = b.names)) ∧
    (∀ a b : TupleDictionary, a.name_count < b.name_count →
      tuple_dictionary_cmp a b = -1) ∧
    (∀ a b : TupleDictionary, a.name_count = b.name_count →
      tuple_dictionary_cmp a b = lexCmp strcmp_bytes a.names b.names) ∧
    tuple_dictionary_cmp ⟨1, 1, [[97]], none⟩ ⟨1, 2, [[97], [98]], none⟩ = -1 ∧
    tuple_dictionary_cmp ⟨1, 2, [[97], [99]], none⟩
      ⟨1, 2, [[97], [98]], none⟩ = 1 := by
  refine ⟨?_, ?_, ?_, ?_, ?_, ?_, by decide, by decide⟩
  · intro a b
    unfold tuple_dictionary_cmp
    split_ifs with h1 h2
    · omega
    · omega
    · exact lexCmp_vals strcmp_bytes strcmp_bytes_vals a.names b.names
  · intro a b
    unfold tuple_dictionary_cmp
    by_cases h1 : a.name_count = b.name_count
    · rw [if_neg (show ¬ b.name_count ≠ a.name_count by omega),
        if_neg (show ¬ a.name_count ≠ b.name_count by omega)]
      exact lexCmp_antisym strcmp_bytes strcmp_bytes_antisym a.names b.names
    · rw [if_pos (show b.name_count ≠ a.name_count by omega),
        if_pos (show a.name_count ≠ b.name_count by omega)]
      rcases Nat.lt_or_ge a.name_count b.name_count with hlt | hge
      · rw [if_pos (show b.name_count > a.name_count by omega),
          if_neg (show ¬ a.name_count > b.name_count by omega)]
        decide
      · rw [if_neg (show ¬ b.name_count > a.name_count by omega),
          if_pos (show a.name_count > b.name_count by omega)]
  · intro a b c hab hbc
    unfold tuple_dictionary_cmp at hab hbc ⊢
    by_cases h1 : a.name_count = b.name_count
    · rw [if_neg (by omega)] at hab
      by_cases h2 : b.name_count = c.name_count
      · rw [if_neg (by omega)] at hbc
        rw [if_neg (by omega)]
        exact lexCmp_trans_neg strcmp_bytes strcmp_bytes_eq_zero
          strcmp_bytes_trans_neg a.names b.names c.names hab hbc
      · rw [if_pos (by omega)] at hbc
        have hlt : b.name_count < c.name_count := by
          by_contra hge
          rw [if_pos (by omega)] at hbc
          omega
        rw [if_pos (by omega), if_neg (by omega)]
    · rw [if_pos (by omega)] at hab
      have hlt : a.name_count < b.name_count := by
        by_contra hge
        rw [if_pos (by omega)] at hab
        omega
      by_cases h2 : b.name_count = c.name_count
      · rw [if_pos (by omega), if_neg (by omega)]
      · rw [if_pos (by omega)] at hbc
        have hlt2 : b.name_count < c.name_count := by
          by_contra hge
          rw [if_pos (by omega)] at hbc
          omega
        rw [if_pos (by omega), if_neg (by omega)]
  · intro a b hwa hwb
    unfold tuple_dictionary_cmp
    by_cases h1 : a.name_count = b.name_count
    · rw [if_neg (by omega)]
      rw [lexCmp_eq_zero strcmp_bytes strcmp_bytes_eq_zero a.names b.names]
    · rw [if_pos (by omega)]
      constructor
      · intro hc
        split_ifs at hc
        omega
      · intro hn
        rw [hwa, hwb, hn] at h1
        exact absurd rfl h1
  · intro a b hlt
    unfold tuple_dictionary_cmp
    rw [if_pos (by omega), if_neg (by omega)]
  · intro a b he
    unfold tuple_dictionary_cmp
    rw [if_neg (by omega)]

/-- C6 witness: the count component applied at two concrete
dictionaries. -/
theorem tuple_dictionary_cmp_spec_witness :
    tuple_dictionary_cmp ⟨1, 0, [], none⟩ ⟨1, 3, [[97], [98], [99]], none⟩ = -1 :=
  tuple_dictionary_cmp_spec.2.2.2.2.1 ⟨1, 0, [], none⟩
    ⟨1, 3, [[97], [98], [99]], none⟩ (by decide)

/-- C7: a dictionary constructed with zero fields has no backing hash
structure at all (its hash is none, so lookup reports absent without
consulting any hash index), every lookup on it returns absent, and
comparing two empty dictionaries returns 0 (equal). -/
theorem tuple_dictionary_empty_spec (fhash : FieldName → Nat) :
    tuple_dictionary_new fhash ([] : List FieldName) = .ok ⟨1, 0, [], none⟩ ∧
    (⟨1, 0, [], none⟩ : TupleDictionary).hash = none ∧
    (∀ (name : FieldName) (len hm : Nat),
      tuple_fieldno_by_name ⟨1, 0, [], none⟩ name len hm = none) ∧
    tuple_dictionary_cmp ⟨1, 0, [], none⟩ ⟨1, 0, [], none⟩ = 0 := by
  refine ⟨by simp [tuple_dictionary_new], rfl, ?_, by decide⟩
  intro name len hm
  rfl

/-- C8: tuple_dictionary_swap exchanges the name arrays, the name counts
and the hash indexes of the two dictionaries, while each wrapper keeps
exactly the reference count it had before the swap. -/
theorem tuple_dictionary_swap_spec (a b : TupleDictionary) :
    (tuple_dictionary_swap a b).1.names = b.names ∧
    (tuple_dictionary_swap a b).1.name_count = b.name_count ∧
    (tuple_dictionary_swap a b).1.hash = b.hash ∧
    (tuple_dictionary_swap a b).1.refs = a.refs ∧
    (tuple_dictionary_swap a b).2.names = a.names ∧
    (tuple_dictionary_swap a b).2.name_count = a.name_count ∧
    (tuple_dictionary_swap a b).2.hash = a.hash ∧
    (tuple_dictionary_swap a b).2.refs = b.refs :=
  ⟨rfl, rfl, rfl, rfl, rfl, rfl, rfl, rfl⟩

end Tarantool

namespace Tarantool

/-! ## Claims C9 and C10 -/

theorem tree_index_build_unfold :
    ∀ (recs : List Tuple) (s : Idx),
      recs.foldl (fun s2 t => { s2 with records := s2.records ++ [t] }) s =
        { s with records := s.records ++ recs } := by
  intro recs
  induction recs with
  | nil => intro s; simp
  | cons r rest ih =>
    intro s
    simp only [List.foldl_cons, ih]
    simp

theorem build_secondary_loop_length (pk : Idx) :
    ∀ l : List Idx, (build_secondary_loop pk l).length = l.length := by
  intro l
  induction l with
  | nil => rfl
  | cons i rest ih => simp [build_secondary_loop, ih]

theorem build_secondary_loop_get (pk : Idx) :
    ∀ (l : List Idx) (j : Nat) (sec : Idx), l[j]? = some sec →
      (build_secondary_loop pk l)[j]? =
        some (if sec.kind = IdxKind.TREE then tree_index_build pk sec else sec) := by
  intro l
  induction l with
  | nil => intro j sec hj; simp at hj
  | cons i rest ih =>
    intro j sec hj
    cases j with
    | zero =>
      have : i = sec := by simpa using hj
      subst this
      simp [build_secondary_loop]
    | succ j2 =>
      have hj2 : rest[j2]? = some sec := by simpa using hj
      simpa [build_secondary_loop] using ih j2 sec hj2

/-- C9: the bulk-build pass leaves disabled collections and collections
without a secondary index untouched; for an enabled collection with at
least one secondary index it keeps the primary (position 0) unchanged
and, walking the secondary indexes in declaration order, bulk-builds
exactly the tree-backed ones from the primary (the build inserts every
primary record, first to last, into the secondary index) while every
hash-backed secondary index is passed over untouched. -/
theorem build_indexes_spec :
    (∀ pk sec : Idx, (tree_index_build pk sec).records =
        sec.records ++ pk.records ∧ (tree_index_build pk sec).kind = sec.kind) ∧
    (∀ spaces : List Space, (build_indexes spaces).length = spaces.length) ∧
    (∀ (spaces : List Space) (n : Nat) (s : Space), spaces[n]? = some s →
      ∃ s2, (build_indexes spaces)[n]? = some s2 ∧
        (s.enabled = false → s2 = s) ∧
        (s.indexes.length ≤ 1 → s2 = s) ∧
        (s.enabled = true → ∀ pk s1 secs, s.indexes = pk :: s1 :: secs →
          s2.enabled = true ∧
          s2.indexes.length = s.indexes.length ∧
          s2.indexes[0]? = some pk ∧
          (∀ j sec, (s1 :: secs)[j]? = some sec →
            s2.indexes[j + 1]? =
              some (if sec.kind = IdxKind.TREE
                    then tree_index_build pk sec else sec)))) := by
  refine ⟨?_, ?_, ?_⟩
  · intro pk sec
    rw [show tree_index_build pk sec =
        { sec with records := sec.records ++ pk.records } from
      tree_index_build_unfold pk.records sec]
    exact ⟨rfl, rfl⟩
  · intro spaces
    simp [build_indexes]
  · intro spaces n s hn
    refine ⟨build_space s, ?_, ?_, ?_, ?_⟩
    · simp [build_indexes, hn]
    · intro hdis
      simp [build_space, hdis]
    · intro hlen
      unfold build_space
      split_ifs with hd
      · rfl
      · match hidx : s.indexes with
        | [] => rfl
        | [pk] => rfl
        | pk :: s1 :: secs =>
          rw [hidx] at hlen
          simp at hlen
    · intro hen pk s1 secs hidx
      have hdis : ¬ s.enabled = false := by rw [hen]; exact Bool.noConfusion
      refine ⟨?_, ?_, ?_, ?_⟩
      · simp [build_space, hdis, hidx, hen]
      · simp [build_space, hdis, hidx, build_secondary_loop,
          build_secondary_loop_length]
      · simp [build_space, hdis, hidx, build_secondary_loop]
      · intro j sec hj
        have hloop := build_secondary_loop_get pk (s1 :: secs) j sec hj
        simp [build_space, hdis, hidx, hloop]

/-- C9 witness: one enabled space with a tree-backed and a hash-backed
secondary index; the tree one is built from the primary, the hash one is
left untouched. -/
theorem build_indexes_spec_witness :
    ∃ s2, (build_indexes [⟨true, [⟨IdxKind.HASH, [[[4]]]⟩, ⟨IdxKind.TREE, []⟩,
        ⟨IdxKind.HASH, []⟩]⟩])[0]? = some s2 ∧
      s2.indexes[1]? =
        some (tree_index_build ⟨IdxKind.HASH, [[[4]]]⟩ ⟨IdxKind.TREE, []⟩) ∧
      s2.indexes[2]? = some ⟨IdxKind.HASH, []⟩ := by
  obtain ⟨s2, hs2, _, _, hsec⟩ := build_indexes_spec.2.2
    [⟨true, [⟨IdxKind.HASH, [[[4]]]⟩, ⟨IdxKind.TREE, []⟩, ⟨IdxKind.HASH, []⟩]⟩]
    0 ⟨true, [⟨IdxKind.HASH, [[[4]]]⟩, ⟨IdxKind.TREE, []⟩, ⟨IdxKind.HASH, []⟩]⟩
    rfl
  obtain ⟨_, _, _, hj⟩ := hsec rfl ⟨IdxKind.HASH, [[[4]]]⟩ ⟨IdxKind.TREE, []⟩
    [⟨IdxKind.HASH, []⟩] rfl
  have h1 := hj 0 ⟨IdxKind.TREE, []⟩ rfl
  have h2 := hj 1 ⟨IdxKind.HASH, []⟩ rfl
  refine ⟨s2, hs2, ?_, ?_⟩
  · simpa using h1
  · simpa using h2

/-- C10: cluster_add_server always registers the given server id as a
participant of the vector clock of the recovery state; it assigns the
local integer server id to the given id exactly when the given UUID
equals the own server UUID of the recovery state (the source asserts the
local id was still unassigned, i.e. 0, in that case), and when the UUIDs
differ the local server id is left unchanged while the vector clock is
still updated. -/
theorem cluster_add_server_spec (r : RecoveryState) (uuid : ServerUuid)
    (id : Nat) :
    id ∈ (cluster_add_server r uuid id).vclock ∧
    (r.server_uuid = uuid → r.server_id = 0 →
      (cluster_add_server r uuid id).server_id = id) ∧
    (r.server_uuid ≠ uuid →
      (cluster_add_server r uuid id).server_id = r.server_id ∧
      (cluster_add_server r uuid id).vclock = vclock_add_server r.vclock id) := by
  refine ⟨?_, ?_, ?_⟩
  · have hmem : id ∈ vclock_add_server r.vclock id := by
      unfold vclock_add_server
      split_ifs with h
      · exact h
      · exact List.mem_append_right _ (List.mem_singleton.mpr rfl)
    unfold cluster_add_server
    by_cases heq : r.server_uuid = uuid <;> simp [heq, hmem]
  · intro heq _
    simp [cluster_add_server, heq]
  · intro hne
    have hne2 : ¬ r.server_uuid = uuid := hne
    constructor
    · simp [cluster_add_server, hne2]
    · simp [cluster_add_server, hne2]

/-- C10 witness: a recovery state whose own UUID is 7 and whose local id
is unassigned gets local id 3 when server (uuid 7, id 3) is added, and
id 3 joins the vector clock. -/
theorem cluster_add_server_spec_witness :
    (cluster_add_server ⟨[], 7, 0⟩ 7 3).server_id = 3 ∧
    3 ∈ (cluster_add_server ⟨[], 7, 0⟩ 7 3).vclock := by
  have hx := cluster_add_server_spec ⟨[], 7, 0⟩ 7 3
  exact ⟨hx.2.1 rfl rfl, hx.1⟩

end Tarantool
